import Mathlib

/-!
Shallow embedding of `eval/compile_value.go` from the elvish repository:
the value-producing expression core (compound evaluation, outer-product
concatenation, glob-pattern concatenation, tilde expansion, map literals,
lambda compilation, and the capture subsystem's drains), together with
theorems settling the specification claims about it.
-/

namespace ElvishCompileValue

/-- Runtime errors of the embedded operations, mirroring the error values
produced in `compile_value.go` (`fmt.Errorf`, `ErrCannotDetermineUsername`,
`ErrBadGlobPattern`, `Frame.errorpf`). -/
inductive Err where
  | unsupportedConcat (lhsKind rhsKind : String)
  | cannotDetermineUsername
  | badGlobPattern
  | tildeKind (kind : String)
  | mapPairCount (nKeys nValues : Nat)
  | custom (msg : String)

/-- A glob segment, mirroring `glob.Segment` (`glob.Literal`, `glob.Slash`,
and the wildcard segments, whose internal structure is irrelevant here and
carried as an opaque tag). -/
inductive Segment where
  | literal (data : String)
  | slash
  | wild (tag : Nat)

instance : Inhabited Segment := ⟨Segment.literal ""⟩

/-- Mirrors `eval.GlobPattern`: a `glob.Pattern` (segments plus directory
override) together with flags and exclusion sub-patterns ("buts").  The
exclusion sub-patterns are referenced by opaque identity tags, as their
internal structure plays no role in the embedded operations, which only
pass them through or append them. -/
structure GlobPattern where
  segments : List Segment
  dirOverride : String
  flags : Nat
  buts : List Nat

/-- Mirrors `types.Value`: the polymorphic runtime value.  Closures are
referenced by an opaque tag here; the closure structure produced by lambda
evaluation is modelled separately (`ClosureM`). -/
inductive Value where
  | str (s : String)
  | bool (b : Bool)
  | list (xs : List Value)
  | map (m : List (Value × Value))
  | glob (g : GlobPattern)
  | exception (e : Err)
  | okV
  | closureRef (tag : Nat)

/-- Mirrors the `Kind()` method of each value type. -/
def Value.kind : Value → String
  | .str _ => "string"
  | .bool _ => "bool"
  | .list _ => "list"
  | .map _ => "map"
  | .glob _ => "glob-pattern"
  | .exception _ => "exception"
  | .okV => "ok"
  | .closureRef _ => "fn"

/-- Whether a value is a glob pattern (the `v.(GlobPattern)` type test in
`compoundOp.Invoke`). -/
def Value.isGlob : Value → Bool
  | .glob _ => true
  | _ => false

/-- Modelled from the spec: `stringToSegments` is not under `src/` (only its
callers in `cat` are); per the spec's glob-pattern model, concatenating a
string onto a pattern "appends the string as a literal segment", so a string
converts to a single literal segment. -/
def stringToSegments (s : String) : List Segment :=
  [Segment.literal s]

/-- Mirrors `cat` in `compile_value.go`: value-pair concatenation, defined
for the four (string, glob-pattern) combinations and failing with an
"unsupported concat" error naming both kinds otherwise.  In the cases that
read `rhs.Segments[0]` the Go code relies on the invariant that a
concatenation operand pattern carries exactly one segment; the embedding
reads the head with a default, which agrees whenever the invariant holds. -/
def cat : Value → Value → Except Err Value
  | .str lhs, .str rhs => .ok (.str (lhs ++ rhs))
  | .str lhs, .glob rhs =>
      .ok (.glob ⟨stringToSegments lhs ++ [rhs.segments.headD default], "",
        rhs.flags, rhs.buts⟩)
  | .glob lhs, .str rhs =>
      .ok (.glob ⟨lhs.segments ++ stringToSegments rhs, lhs.dirOverride,
        lhs.flags, lhs.buts⟩)
  | .glob lhs, .glob rhs =>
      .ok (.glob ⟨lhs.segments ++ [rhs.segments.headD default],
        lhs.dirOverride, Nat.lor lhs.flags rhs.flags, lhs.buts ++ rhs.buts⟩)
  | lhs, rhs => .error (.unsupportedConcat lhs.kind rhs.kind)

/-- Whether `cat` is defined for a pair of operand kinds: exactly the four
(string, glob-pattern) combinations. -/
def catDefined : Value → Value → Bool
  | .str _, .str _ => true
  | .str _, .glob _ => true
  | .glob _, .str _ => true
  | .glob _, .glob _ => true
  | _, _ => false

/-- Sequential effectful map over a list in the `Except` monad, aborting at
the first error: the evaluation order of the Go loops in `outerProduct`,
`compoundOp.Invoke` and `pcaptureOutput`. -/
def mapMExc {α β : Type} (f : α → Except Err β) : List α → Except Err (List β)
  | [] => .ok []
  | x :: xs =>
    match f x with
    | .error e => .error e
    | .ok y =>
      match mapMExc f xs with
      | .error e => .error e
      | .ok ys => .ok (y :: ys)

/-- Mirrors `outerProduct` in `compile_value.go`: apply `f` to every pair in
row-major order (outer loop over `vs`, inner loop over `us`), aborting at
the first failure and discarding all partial results. -/
def outerProduct (vs us : List Value)
    (f : Value → Value → Except Err Value) : Except Err (List Value) :=
  match mapMExc (fun v => mapMExc (f v) us) vs with
  | .error e => .error e
  | .ok rows => .ok rows.flatten

/-! ### Tilde expansion (`doTilde`, `mustGetHome`, `path.Join`) -/

/-- Index of the first occurrence of a character, mirroring
`strings.Index(s, "/")` (returning `none` for Go's `-1`). -/
def idxOfChar (c : Char) : List Char → Option Nat
  | [] => none
  | x :: xs => if x = c then some 0 else (idxOfChar c xs).map (· + 1)

/-- Split a character list at every occurrence of a separator character,
keeping empty groups, as Go's `strings.Split` does. -/
def splitOnChar (c : Char) : List Char → List (List Char)
  | [] => [[]]
  | x :: xs =>
    if x = c then [] :: splitOnChar c xs
    else
      match splitOnChar c xs with
      | [] => [[x]]
      | g :: gs => (x :: g) :: gs

/-- Stack step of the lexical path-cleaning algorithm of Go's `path.Clean`:
process one path component against the stack of kept components. -/
def cleanComponents (rooted : Bool) : List String → List String → List String
  | [], acc => acc.reverse
  | c :: cs, acc =>
    if c = "" ∨ c = "." then cleanComponents rooted cs acc
    else if c = ".." then
      match acc with
      | t :: ts =>
        if t = ".." then cleanComponents rooted cs (c :: acc)
        else cleanComponents rooted cs ts
      | [] =>
        if rooted then cleanComponents rooted cs []
        else cleanComponents rooted cs [c]
    else cleanComponents rooted cs (c :: acc)

/-- Functional model of Go's `path.Clean`: shortest lexically equivalent
path (collapse repeated slashes, drop `.`, resolve `..` against preceding
components, keep leading `..` only in relative paths). -/
def pathClean (p : String) : String :=
  match p.toList with
  | [] => "."
  | c :: cs =>
    let rooted := c == '/'
    let stack := cleanComponents rooted ((splitOnChar '/' (c :: cs)).map String.mk) []
    let body := String.intercalate "/" stack
    if rooted then (if body = "" then "/" else "/" ++ body)
    else (if body = "" then "." else body)

/-- Functional model of Go's `path.Join` on two elements: join the
non-empty elements with a slash and clean the result; all-empty input
yields the empty string. -/
def pathJoin (a b : String) : String :=
  if a = "" then (if b = "" then "" else pathClean b)
  else if b = "" then pathClean a
  else pathClean (a ++ "/" ++ b)

/-- The home-directory resolver: the behavior of `util.GetHome` /
`mustGetHome`, which are not under `src/`.  Modelled from the spec: maps a
user name to that user's home directory ("" denotes the invoking user),
failing when the user cannot be resolved; theorems quantify over it. -/
def HomeFn : Type := String → Except Err String

/-- Mirrors `doTilde` in `compile_value.go`: tilde expansion of one value.
A string `user/rest` splits at the first slash and becomes
`path.Join(home(user), rest)`; a glob pattern requires its first segment to
be a literal containing a slash (rewritten to `home ++ remainder`) or a
bare slash (setting the directory override to the invoking user's home);
anything else fails.  `throw` in the Go code is modelled as `Except.error`. -/
def doTilde (home : HomeFn) : Value → Except Err Value
  | .str s =>
    match idxOfChar '/' s.toList with
    | none =>
      match home s with
      | .error e => .error e
      | .ok dir => .ok (.str (pathJoin dir ""))
    | some i =>
      match home (String.mk (s.toList.take i)) with
      | .error e => .error e
      | .ok dir => .ok (.str (pathJoin dir (String.mk (s.toList.drop (i + 1)))))
  | .glob g =>
    match g.segments with
    | [] => .error .badGlobPattern
    | seg0 :: restSegs =>
      match seg0 with
      | .literal s =>
        match idxOfChar '/' s.toList with
        | none => .error .cannotDetermineUsername
        | some i =>
          match home (String.mk (s.toList.take i)) with
          | .error e => .error e
          | .ok dir =>
            .ok (.glob ⟨.literal (dir ++ String.mk (s.toList.drop i)) :: restSegs,
              g.dirOverride, g.flags, g.buts⟩)
      | .slash =>
        match home "" with
        | .error e => .error e
        | .ok dir => .ok (.glob ⟨g.segments, dir, g.flags, g.buts⟩)
      | .wild _ => .error .cannotDetermineUsername
  | v => .error (.tildeKind v.kind)

/-! ### Frames and compound evaluation -/

/-- The execution context visible to the embedded operations: the
home-directory resolver (`util.GetHome`) and the filesystem glob expander
(`doGlob`, modelled from the spec: the path-matching collaborator mapping a
pattern to the ordered sequence of matching path strings; it is not under
`src/`). -/
structure Frame where
  home : HomeFn
  globExpand : GlobPattern → List Value

/-- A default frame for concrete instantiations: no user resolves and no
pattern matches anything. -/
def defaultFrame : Frame :=
  ⟨fun _ => .error .cannotDetermineUsername, fun _ => []⟩

/-- A compiled operation, shallowly embedded as its run-time behavior:
`ValuesOpBody.Invoke` produces a value sequence or fails. -/
def Op : Type := Frame → Except Err (List Value)

/-- An operation producing a fixed value sequence (`literalValues`). -/
def constOp (vs : List Value) : Op := fun _ => .ok vs

/-- Mirrors `literalStr`: an operation producing one literal string. -/
def literalStrOp (text : String) : Op := constOp [.str text]

/-- The accumulation loop of `compoundOp.Invoke`: fold the remaining
sub-operations into the accumulator with `outerProduct _ _ cat`. -/
def compoundLoop (fm : Frame) : List Value → List Op → Except Err (List Value)
  | acc, [] => .ok acc
  | acc, op :: rest =>
    match op fm with
    | .error e => .error e
    | .ok us =>
      match outerProduct acc us cat with
      | .error e => .error e
      | .ok acc' => compoundLoop fm acc' rest

/-- Mirrors `compoundOp.Invoke`: evaluate the first sub-operation, fold the
rest in with `outerProduct`/`cat`, apply tilde expansion to every result if
the compound began with a tilde prefix, and filesystem-expand the sequence
if any resulting value is a glob pattern (patterns replaced in place by
their matches, other values passed through). -/
def compoundInvoke (tilde : Bool) (op0 : Op) (rest : List Op) : Op := fun fm =>
  match op0 fm with
  | .error e => .error e
  | .ok vs0 =>
    match compoundLoop fm vs0 rest with
    | .error e => .error e
    | .ok vs1 =>
      match (if tilde then mapMExc (doTilde fm.home) vs1 else .ok vs1) with
      | .error e => .error e
      | .ok vs =>
        if vs.any Value.isGlob then
          .ok (vs.flatMap (fun v =>
            match v with
            | .glob g => fm.globExpand g
            | _ => [v]))
        else .ok vs

/-- The specification-side fold of compound evaluation: fold
`outerProduct _ _ cat` left-to-right over the already-produced
sub-expression value sequences. -/
def foldCat : List Value → List (List Value) → Except Err (List Value)
  | acc, [] => .ok acc
  | acc, us :: rest =>
    match outerProduct acc us cat with
    | .error e => .error e
    | .ok acc' => foldCat acc' rest

/-- A compiled indexing sub-expression of a compound, as `compiler.compound`
consumes it: whether its head is a tilde token, and (shallowly) the
operation `compiler.indexing` compiles it to. -/
structure Indexing where
  headIsTilde : Bool
  op : Op

/-- A compound node: its list of indexings (`parse.Compound.Indexings`). -/
structure Compound where
  indexings : List Indexing

/-- Mirrors `compiler.compound`: zero indexings compile to the literal
empty string; a lone tilde compiles to an eager home-directory lookup; a
tilde head followed by more indexings sets the tilde flag and drops the
tilde indexing; otherwise all indexings feed the compound machinery. -/
def compileCompound (n : Compound) : Op :=
  match n.indexings with
  | [] => literalStrOp ""
  | i0 :: rest =>
    if i0.headIsTilde then
      match rest with
      | [] => fun fm =>
        match fm.home "" with
        | .error e => .error e
        | .ok h => .ok [.str h]
      | r0 :: rs => compoundInvoke true r0.op (rs.map Indexing.op)
    else compoundInvoke false i0.op (rest.map Indexing.op)

/-! ### Exception capture -/

/-- The protected evaluation of a body operation, the behavior of
`Frame.PEval` as `exceptionCaptureOp.Invoke` consumes it.  Modelled from the
spec: `Frame.PEval` is not under `src/`; per the spec it runs the body and
returns the raised failure, or nothing on success.  A body is therefore
embedded directly as its protected-evaluation outcome. -/
def PEvalBody : Type := Frame → Option Err

/-- Mirrors `exceptionCaptureOp.Invoke`: protected evaluation of the body;
a failure becomes a single exception value, success the OK sentinel. -/
def exceptionCaptureInvoke (body : PEvalBody) : Op := fun fm =>
  match body fm with
  | none => .ok [Value.okV]
  | some e => .ok [Value.exception e]

/-! ### Output capture: the byte-stream drain -/

/-- The loop of `bytesCb` in `pcaptureOutput` over the byte stream, with
the bytes still to read and the bytes accumulated since the last newline:
`bufio.ReadString('\n')` returns each chunk up to and including a newline,
and at end of stream the remaining bytes with an EOF error; every non-empty
chunk is appended with a trailing newline stripped (`strings.TrimSuffix`). -/
def readLinesAux : List Char → List Char → List String
  | [], acc => if acc.isEmpty then [] else [String.mk acc.reverse]
  | c :: rest, acc =>
    if c = '\n' then String.mk acc.reverse :: readLinesAux rest []
    else readLinesAux rest (c :: acc)

/-- The byte-stream drain of `pcaptureOutput`: the values the `bytesCb`
goroutine appends to the result buffer, in their internal order, for a
given byte stream produced by the body. -/
def bytesDrain (s : String) : List Value :=
  (readLinesAux s.toList []).map Value.str

/-- A byte stream consisting of newline-terminated lines followed by a
final fragment: the input shape the byte-drain claims quantify over. -/
def joinLines : List String → String → String
  | [], frag => frag
  | l :: ls, frag => l ++ "\n" ++ joinLines ls frag

/-! ### Map literals -/

/-- Mirrors `hashmap.Assoc` on the association-list model of the persistent
hash map: replace the binding of an existing key, else append a new one.
The key-equality test of the hashmap collaborator (which is not under
`src/`) is a parameter `eqf`. -/
def mapAssoc (eqf : Value → Value → Bool) :
    List (Value × Value) → Value → Value → List (Value × Value)
  | [], k, v => [(k, v)]
  | (k', v') :: rest, k, v =>
    if eqf k' k then (k, v) :: rest else (k', v') :: mapAssoc eqf rest k v

/-- Key lookup in the association-list model of the map. -/
def mapLookup (eqf : Value → Value → Bool)
    (m : List (Value × Value)) (k : Value) : Option Value :=
  match m with
  | [] => none
  | (k', v') :: rest => if eqf k' k then some v' else mapLookup eqf rest k

/-- The inner loop of `mapPairsOp.Invoke` for one pair: zip the key
sequence with the value sequence positionally and insert each binding. -/
def insertPairs (eqf : Value → Value → Bool)
    (m : List (Value × Value)) (ks vs : List Value) : List (Value × Value) :=
  (ks.zip vs).foldl (fun acc kv => mapAssoc eqf acc kv.1 kv.2) m

/-- The loop of `mapPairsOp.Invoke`: for each pair evaluate the keys
operation then the values operation, fail with both counts when the two
sequences differ in length, and otherwise insert the zipped bindings. -/
def mapPairsLoop (eqf : Value → Value → Bool) (fm : Frame) :
    List (Op × Op) → List (Value × Value) → Except Err (List (Value × Value))
  | [], m => .ok m
  | (kop, vop) :: rest, m =>
    match kop fm with
    | .error e => .error e
    | .ok ks =>
      match vop fm with
      | .error e => .error e
      | .ok vs =>
        if ks.length ≠ vs.length then
          .error (.mapPairCount ks.length vs.length)
        else mapPairsLoop eqf fm rest (insertPairs eqf m ks vs)

/-- Mirrors `mapPairsOp.Invoke`: build the map from the empty map and
return it as the single produced value. -/
def mapPairsInvoke (eqf : Value → Value → Bool)
    (pairs : List (Op × Op)) : Op := fun fm =>
  match mapPairsLoop eqf fm pairs [] with
  | .error e => .error e
  | .ok m => .ok [Value.map m]

/-- The reference fold for map construction from already-produced
sequences: insert every pair's zipped bindings in order. -/
def buildMap (eqf : Value → Value → Bool)
    (data : List (List Value × List Value)) : List (Value × Value) :=
  data.foldl (fun m d => insertPairs eqf m d.1 d.2) []

/-- A concrete key-equality function for instantiations: string keys
compared by their text, all other values unequal. -/
def strKeyEq : Value → Value → Bool
  | .str a, .str b => a == b
  | _, _ => false

/-! ### Lambda evaluation (`lambdaOp.Invoke`) -/

/-- An effectful operation for the lambda model: option-default operations
may have observable effects through the frame (variable cells), so they are
embedded as state transformers over an abstract store component `Nat`,
failing or producing a value sequence and the updated store. -/
def EOp : Type := Nat → Except Err (List Value × Nat)

/-- Mirrors `lambdaOp`: the compiled lambda primary (signature names, the
option default operations, the captured names, and the body operation as an
opaque tag). -/
structure LambdaOpM where
  argNames : List String
  restArgName : String
  optNames : List String
  optDefaultOps : List EOp
  capture : List String
  subop : Nat

/-- Mirrors `eval.Closure` as `lambdaOp.Invoke` constructs it: the closure
stores the already-computed option default values (`optDefaults
[]types.Value`), not the default operations, alongside the resolved capture
namespace and the shared body. -/
structure ClosureM where
  argNames : List String
  restArgName : String
  optNames : List String
  optDefaults : List Value
  capture : List (String × Option Nat)
  subop : Nat

/-- The default-evaluation loop of `lambdaOp.Invoke`: evaluate each option
default operation in order, threading the store, and unwrap exactly one
value per operation (`ExecAndUnwrap(...).One().Any()`). -/
def evalDefaults : List EOp → Nat → Except Err (List Value × Nat)
  | [], st => .ok ([], st)
  | op :: ops, st =>
    match op st with
    | .error e => .error e
    | .ok (vs, st') =>
      match vs with
      | [v] =>
        match evalDefaults ops st' with
        | .error e => .error e
        | .ok (rest, st'') => .ok (v :: rest, st'')
      | _ => .error (.custom "option default value must evaluate to a single value")

/-- The capture resolution of `lambdaOp.Invoke`: bind each captured name to
the variable cell (an opaque cell identity, or none) resolved now, at
closure-creation time (`fm.ResolveVar`). -/
def resolveCapture (names : List String)
    (resolve : String → Option Nat) : List (String × Option Nat) :=
  names.map (fun n => (n, resolve n))

/-- Mirrors `lambdaOp.Invoke`: resolve the captured names and evaluate
every option default operation now, returning a closure that stores the
resulting default values, together with the updated store. -/
def lambdaOpInvoke (L : LambdaOpM) (resolve : String → Option Nat)
    (st : Nat) : Except Err (ClosureM × Nat) :=
  match evalDefaults L.optDefaultOps st with
  | .error e => .error e
  | .ok (vals, st') =>
    .ok (⟨L.argNames, L.restArgName, L.optNames, vals,
      resolveCapture L.capture resolve, L.subop⟩, st')

/-! ### Helper lemmas -/

theorem mapMExc_ok_length {α β : Type} {f : α → Except Err β}
    {xs : List α} {ys : List β} (h : mapMExc f xs = .ok ys) :
    ys.length = xs.length := by
  induction xs generalizing ys with
  | nil =>
    simp only [mapMExc] at h
    cases h
    rfl
  | cons x xs ih =>
    simp only [mapMExc] at h
    cases hfx : f x with
    | error e => rw [hfx] at h; cases h
    | ok y =>
      rw [hfx] at h
      cases hrest : mapMExc f xs with
      | error e => rw [hrest] at h; cases h
      | ok ys' =>
        rw [hrest] at h
        cases h
        simp [ih hrest]

theorem mapMExc_getElem? {α β : Type} {f : α → Except Err β}
    {xs : List α} {ys : List β} (h : mapMExc f xs = .ok ys) :
    ∀ (i : Nat) (x : α), xs[i]? = some x → ∃ y, f x = .ok y ∧ ys[i]? = some y := by
  induction xs generalizing ys with
  | nil => intro i x hx; simp at hx
  | cons x0 xs ih =>
    simp only [mapMExc] at h
    cases hfx : f x0 with
    | error e => rw [hfx] at h; cases h
    | ok y0 =>
      rw [hfx] at h
      cases hrest : mapMExc f xs with
      | error e => rw [hrest] at h; cases h
      | ok ys' =>
        rw [hrest] at h
        cases h
        intro i x hx
        cases i with
        | zero =>
          simp only [List.getElem?_cons_zero, Option.some.injEq] at hx
          subst hx
          exact ⟨y0, hfx, by simp⟩
        | succ i =>
          simp only [List.getElem?_cons_succ] at hx
          obtain ⟨y, hy, hy'⟩ := ih hrest i x hx
          refine ⟨y, hy, ?_⟩
          simpa using hy'

theorem mapMExc_ok_of_forall {α β : Type} {f : α → Except Err β}
    {xs : List α} (h : ∀ x ∈ xs, ∃ y, f x = .ok y) :
    ∃ ys, mapMExc f xs = .ok ys := by
  induction xs with
  | nil => exact ⟨[], rfl⟩
  | cons x xs ih =>
    obtain ⟨y, hy⟩ := h x (List.mem_cons_self x xs)
    obtain ⟨ys, hys⟩ := ih (fun z hz => h z (List.mem_cons_of_mem x hz))
    exact ⟨y :: ys, by simp [mapMExc, hy, hys]⟩

theorem mapMExc_mem_ok {α β : Type} {f : α → Except Err β}
    {xs : List α} {ys : List β} (h : mapMExc f xs = .ok ys) :
    ∀ x ∈ xs, ∃ y, f x = .ok y := by
  induction xs generalizing ys with
  | nil => intro x hx; simp at hx
  | cons x0 xs ih =>
    simp only [mapMExc] at h
    cases hfx : f x0 with
    | error e => rw [hfx] at h; cases h
    | ok y0 =>
      rw [hfx] at h
      cases hrest : mapMExc f xs with
      | error e => rw [hrest] at h; cases h
      | ok ys' =>
        rw [hrest] at h
        cases h
        intro x hx
        rcases List.mem_cons.mp hx with hx | hx
        · exact ⟨y0, hx ▸ hfx⟩
        · exact ih hrest x hx

theorem mapMExc_error_append {α β : Type} {f : α → Except Err β}
    {pre : List α} {a : α} {rest : List α} {e : Err}
    (hpre : ∀ x ∈ pre, ∃ y, f x = .ok y) (ha : f a = .error e) :
    mapMExc f (pre ++ a :: rest) = .error e := by
  induction pre with
  | nil => simp [mapMExc, ha]
  | cons p ps ih =>
    obtain ⟨y, hy⟩ := hpre p (List.mem_cons_self p ps)
    have hrec := ih (fun z hz => hpre z (List.mem_cons_of_mem p hz))
    simp [mapMExc, hy, hrec]

theorem flatten_length_const {α : Type} {rows : List (List α)} {n : Nat}
    (h : ∀ r ∈ rows, r.length = n) :
    rows.flatten.length = rows.length * n := by
  induction rows with
  | nil => simp
  | cons r rows ih =>
    have hr := h r (List.mem_cons_self r rows)
    have := ih (fun s hs => h s (List.mem_cons_of_mem r hs))
    simp [List.flatten, hr, this, Nat.succ_mul, Nat.add_comm]

theorem flatten_getElem?_const {α : Type} {rows : List (List α)} {n : Nat}
    (h : ∀ r ∈ rows, r.length = n) (i j : Nat) (hj : j < n) :
    rows.flatten[i * n + j]? = rows[i]?.bind (fun r => r[j]?) := by
  induction rows generalizing i with
  | nil => simp
  | cons r rows ih =>
    have hr := h r (List.mem_cons_self r rows)
    have hrest : ∀ s ∈ rows, s.length = n :=
      fun s hs => h s (List.mem_cons_of_mem r hs)
    cases i with
    | zero =>
      have hjr : j < r.length := hr ▸ hj
      simp only [Nat.zero_mul, Nat.zero_add, List.flatten_cons,
        List.getElem?_cons_zero, Option.some_bind]
      exact List.getElem?_append_left hjr
    | succ k =>
      have hidx : (k + 1) * n + j = r.length + (k * n + j) := by
        rw [hr]; ring
      simp only [List.flatten_cons, hidx, List.getElem?_cons_succ]
      rw [List.getElem?_append_right (Nat.le_add_right _ _)]
      simp only [Nat.add_sub_cancel_left]
      exact ih hrest k

theorem mapMExc_mem_rev {α β : Type} {f : α → Except Err β}
    {xs : List α} {ys : List β} (h : mapMExc f xs = .ok ys) :
    ∀ y ∈ ys, ∃ x ∈ xs, f x = .ok y := by
  induction xs generalizing ys with
  | nil =>
    simp only [mapMExc] at h
    cases h
    intro y hy
    simp at hy
  | cons x0 xs ih =>
    simp only [mapMExc] at h
    cases hfx : f x0 with
    | error e => rw [hfx] at h; cases h
    | ok y0 =>
      rw [hfx] at h
      cases hrest : mapMExc f xs with
      | error e => rw [hrest] at h; cases h
      | ok ys' =>
        rw [hrest] at h
        cases h
        intro y hy
        rcases List.mem_cons.mp hy with hy | hy
        · exact ⟨x0, List.mem_cons_self x0 xs, hy ▸ hfx⟩
        · obtain ⟨x, hx, hfx'⟩ := ih hrest y hy
          exact ⟨x, List.mem_cons_of_mem x0 hx, hfx'⟩

theorem outerProduct_ok_length {vs us : List Value}
    {f : Value → Value → Except Err Value} {ws : List Value}
    (h : outerProduct vs us f = .ok ws) :
    ws.length = vs.length * us.length := by
  unfold outerProduct at h
  cases hrows : mapMExc (fun v => mapMExc (f v) us) vs with
  | error e => rw [hrows] at h; cases h
  | ok rows =>
    rw [hrows] at h
    cases h
    have hlen : ∀ r ∈ rows, r.length = us.length := by
      intro r hr
      obtain ⟨v, _, hv⟩ := mapMExc_mem_rev hrows r hr
      exact mapMExc_ok_length hv
    rw [flatten_length_const hlen, mapMExc_ok_length hrows]

/-! ### Claim theorems -/

/-- C10: compiling a compound expression with zero indexings produces an
operation that, on every frame, succeeds and yields exactly one value, the
empty string. -/
theorem empty_compound_empty_string :
    ∀ fm : Frame, compileCompound ⟨[]⟩ fm = .ok [Value.str ""] :=
  fun _ => rfl

/-- C7: exception capture returns exactly one value and no error on every
body: the single OK sentinel when the body's protected evaluation succeeds,
and a single exception value wrapping the failure when it fails; the
failure never propagates. -/
theorem exception_capture_single_value :
    ∀ (body : PEvalBody) (fm : Frame),
      exceptionCaptureInvoke body fm =
        .ok [match body fm with
             | none => Value.okV
             | some e => Value.exception e] := by
  intro body fm
  unfold exceptionCaptureInvoke
  cases body fm <;> rfl

/-- C6: concatenating a string onto a glob pattern appends the string as a
literal segment to the pattern's segment sequence, building a new pattern
value and leaving the directory override, the flags and the exclusion
sub-patterns unchanged; the input pattern itself is not modified. -/
theorem cat_glob_str_appends_literal :
    ∀ (g : GlobPattern) (s : String),
      cat (.glob g) (.str s) =
        .ok (.glob ⟨g.segments ++ [Segment.literal s], g.dirOverride,
          g.flags, g.buts⟩) :=
  fun _ _ => rfl

/-- C3: `cat` of two strings is their literal concatenation; `cat` succeeds
exactly on the four (string, glob-pattern) kind combinations, and on every
other pair of operands it fails with an "unsupported concat" error naming
both operands' kinds. -/
theorem cat_spec :
    (∀ a b : String, cat (.str a) (.str b) = .ok (.str (a ++ b))) ∧
    (∀ v w : Value, catDefined v w = true → ∃ r, cat v w = .ok r) ∧
    (∀ v w : Value, catDefined v w = false →
      cat v w = .error (.unsupportedConcat v.kind w.kind)) := by
  refine ⟨fun a b => rfl, ?_, ?_⟩
  · intro v w h
    cases v <;> cases w <;> first
      | exact ⟨_, rfl⟩
      | simp [catDefined] at h
  · intro v w h
    cases v <;> cases w <;> first
      | rfl
      | simp [catDefined] at h

/-- Witness for C3 at concrete operands: two strings concatenate, a
(string, pattern) pair succeeds, and a (bool, ok) pair fails naming both
kinds. -/
theorem cat_spec_witness :
    cat (Value.str "foo") (Value.str "bar") = .ok (Value.str "foobar") ∧
    (∃ r, cat (Value.str "s") (Value.glob ⟨[Segment.wild 0], "", 0, []⟩) = .ok r) ∧
    cat (Value.bool true) Value.okV =
      .error (.unsupportedConcat "bool" "ok") :=
  ⟨cat_spec.1 "foo" "bar", cat_spec.2.1 _ _ rfl, cat_spec.2.2 _ _ rfl⟩

/-- C2: `outerProduct` on fully-succeeding combines yields a sequence of
length `|A| * |B|` whose element at row-major position `(i, j)` is
`f A[i] B[j]`; an empty left sequence yields the empty sequence for any
right sequence; and a failing combine aborts the computation at the first
failing pair in row-major order, returning that failure and discarding all
partial results. -/
theorem outerProduct_spec :
    (∀ (A B : List Value) (f : Value → Value → Except Err Value),
      (∀ a ∈ A, ∀ b ∈ B, ∃ w, f a b = .ok w) →
      ∃ ws, outerProduct A B f = .ok ws ∧
        ws.length = A.length * B.length ∧
        ∀ (i j : Nat), i < A.length → j < B.length →
          ∃ a b w, A[i]? = some a ∧ B[j]? = some b ∧ f a b = .ok w ∧
            ws[i * B.length + j]? = some w) ∧
    (∀ (B : List Value) (f : Value → Value → Except Err Value),
      outerProduct [] B f = .ok []) ∧
    (∀ (preA : List Value) (a : Value) (restA : List Value)
       (preB : List Value) (b : Value) (restB : List Value)
       (f : Value → Value → Except Err Value) (e : Err),
      (∀ x ∈ preA, ∀ y ∈ preB ++ b :: restB, ∃ w, f x y = .ok w) →
      (∀ y ∈ preB, ∃ w, f a y = .ok w) →
      f a b = .error e →
      outerProduct (preA ++ a :: restA) (preB ++ b :: restB) f = .error e) := by
  refine ⟨?_, fun B f => rfl, ?_⟩
  · intro A B f hok
    have hrows : ∃ rows, mapMExc (fun v => mapMExc (f v) B) A = .ok rows := by
      apply mapMExc_ok_of_forall
      intro a ha
      exact mapMExc_ok_of_forall (fun b hb => hok a ha b hb)
    obtain ⟨rows, hrows⟩ := hrows
    have hout : outerProduct A B f = .ok rows.flatten := by
      unfold outerProduct
      rw [hrows]
    refine ⟨rows.flatten, hout, outerProduct_ok_length hout, ?_⟩
    intro i j hi hj
    have hA : A[i]? = some A[i] := List.getElem?_eq_getElem hi
    obtain ⟨row, hrow, hrowi⟩ := mapMExc_getElem? hrows i A[i] hA
    have hB : B[j]? = some B[j] := List.getElem?_eq_getElem hj
    obtain ⟨w, hw, hwj⟩ := mapMExc_getElem? hrow j B[j] hB
    have hall : ∀ r ∈ rows, r.length = B.length := by
      intro r hr
      obtain ⟨v, _, hv⟩ := mapMExc_mem_rev hrows r hr
      exact mapMExc_ok_length hv
    refine ⟨A[i], B[j], w, hA, hB, hw, ?_⟩
    rw [flatten_getElem?_const hall i j hj, hrowi, Option.some_bind, hwj]
  · intro preA a restA preB b restB f e hpreRows hpreB hab
    have hrow : mapMExc (f a) (preB ++ b :: restB) = .error e :=
      mapMExc_error_append hpreB hab
    have hpreOk : ∀ x ∈ preA,
        ∃ ys, (fun v => mapMExc (f v) (preB ++ b :: restB)) x = .ok ys := by
      intro x hx
      exact mapMExc_ok_of_forall (fun y hy => hpreRows x hx y hy)
    have houter : mapMExc (fun v => mapMExc (f v) (preB ++ b :: restB))
        (preA ++ a :: restA) = .error e :=
      mapMExc_error_append hpreOk hrow
    unfold outerProduct
    rw [houter]

/-- Witness for C2 at concrete inputs: a 1-by-1 product of strings under
`cat` succeeds with the stated length, and a non-concatenable first pair
aborts with the "unsupported concat" failure. -/
theorem outerProduct_spec_witness :
    (∃ ws, outerProduct [Value.str "a"] [Value.str "x"] cat = .ok ws ∧
      ws.length = 1 * 1 ∧
      ∀ (i j : Nat), i < 1 → j < 1 →
        ∃ a b w, [Value.str "a"][i]? = some a ∧ [Value.str "x"][j]? = some b ∧
          cat a b = .ok w ∧ ws[i * 1 + j]? = some w) ∧
    outerProduct [Value.bool true] [Value.str "x"] cat =
      .error (.unsupportedConcat "bool" "string") := by
  constructor
  · have h := outerProduct_spec.1 [Value.str "a"] [Value.str "x"] cat (by
      intro a ha b hb
      simp only [List.mem_singleton] at ha hb
      subst ha
      subst hb
      exact ⟨_, rfl⟩)
    simpa using h
  · exact outerProduct_spec.2.2 [] (Value.bool true) [] [] (Value.str "x") []
      cat _ (by simp) (by simp) rfl

theorem compoundLoop_constOp (fm : Frame) (acc : List Value)
    (seqs : List (List Value)) :
    compoundLoop fm acc (seqs.map constOp) = foldCat acc seqs := by
  induction seqs generalizing acc with
  | nil => rfl
  | cons us rest ih =>
    simp only [List.map_cons, compoundLoop, constOp, foldCat]
    cases outerProduct acc us cat with
    | error e => rfl
    | ok acc' => exact ih acc'

theorem foldCat_ok_length {s0 : List Value} {seqs : List (List Value)}
    {R : List Value} (h : foldCat s0 seqs = .ok R) :
    R.length = seqs.foldl (fun n us => n * us.length) s0.length := by
  induction seqs generalizing s0 with
  | nil =>
    simp only [foldCat] at h
    cases h
    rfl
  | cons us rest ih =>
    simp only [foldCat] at h
    cases hop : outerProduct s0 us cat with
    | error e => rw [hop] at h; cases h
    | ok acc' =>
      rw [hop] at h
      have := ih h
      rw [this, List.foldl_cons, outerProduct_ok_length hop]

/-- C1: a compound expression (without tilde prefix) whose juxtaposed
sub-expressions produce value sequences `S0, …, Sn` evaluates, when no
sub-expression fails, no concatenation fails and no resulting value is a
glob pattern, to the left-to-right fold of `outerProduct` over the
sequences with `cat` as combine, of length equal to the product of all
`|Si|`; in particular sub-sequences of strings `{a1, a2}` and
`{b1, b2, b3}` yield exactly the six concatenations in row-major order
(earliest sub-expression varying slowest). -/
theorem compound_outer_product_fold :
    (∀ (fm : Frame) (s0 : List Value) (seqs : List (List Value))
       (R : List Value),
      foldCat s0 seqs = .ok R →
      R.any Value.isGlob = false →
      compoundInvoke false (constOp s0) (seqs.map constOp) fm = .ok R ∧
        R.length = seqs.foldl (fun n us => n * us.length) s0.length) ∧
    (∀ (fm : Frame) (a1 a2 b1 b2 b3 : String),
      compoundInvoke false (constOp [.str a1, .str a2])
          [constOp [.str b1, .str b2, .str b3]] fm =
        .ok [.str (a1 ++ b1), .str (a1 ++ b2), .str (a1 ++ b3),
             .str (a2 ++ b1), .str (a2 ++ b2), .str (a2 ++ b3)]) := by
  constructor
  · intro fm s0 seqs R hfold hglob
    refine ⟨?_, foldCat_ok_length hfold⟩
    unfold compoundInvoke
    simp only [constOp]
    rw [compoundLoop_constOp, hfold]
    simp [hglob]
  · intro fm a1 a2 b1 b2 b3
    rfl

/-- Witness for C1 at concrete sequences: two string sequences of sizes 2
and 3 fold to the six row-major concatenations, and the general fold
statement holds there. -/
theorem compound_outer_product_fold_witness :
    (compoundInvoke false (constOp [Value.str "a1", Value.str "a2"])
        [constOp [Value.str "b1", Value.str "b2", Value.str "b3"]]
        defaultFrame =
      .ok [Value.str "a1b1", Value.str "a1b2", Value.str "a1b3",
           Value.str "a2b1", Value.str "a2b2", Value.str "a2b3"] ∧
      (6 : Nat) =
        [[Value.str "b1", Value.str "b2", Value.str "b3"]].foldl
          (fun n us => n * us.length)
          [Value.str "a1", Value.str "a2"].length) ∧
    compoundInvoke false (constOp [Value.str "x", Value.str "y"])
        [constOp [Value.str "1", Value.str "2", Value.str "3"]]
        defaultFrame =
      .ok [Value.str "x1", Value.str "x2", Value.str "x3",
           Value.str "y1", Value.str "y2", Value.str "y3"] := by
  constructor
  · have h := compound_outer_product_fold.1 defaultFrame
      [Value.str "a1", Value.str "a2"]
      [[Value.str "b1", Value.str "b2", Value.str "b3"]]
      [Value.str "a1b1", Value.str "a1b2", Value.str "a1b3",
       Value.str "a2b1", Value.str "a2b2", Value.str "a2b3"]
      rfl rfl
    exact ⟨h.1, h.2⟩
  · exact compound_outer_product_fold.2 defaultFrame "x" "y" "1" "2" "3"

theorem mapPairsLoop_error (eqf : Value → Value → Bool) (fm : Frame)
    (pre : List (List Value × List Value)) (ks vs : List Value)
    (rest : List (List Value × List Value)) (m : List (Value × Value))
    (hpre : ∀ d ∈ pre, d.1.length = d.2.length)
    (hne : ks.length ≠ vs.length) :
    mapPairsLoop eqf fm
        ((pre ++ (ks, vs) :: rest).map (fun d => (constOp d.1, constOp d.2))) m =
      .error (.mapPairCount ks.length vs.length) := by
  induction pre generalizing m with
  | nil =>
    simp only [List.nil_append, List.map_cons, mapPairsLoop, constOp]
    simp [hne]
  | cons d pre ih =>
    have hd := hpre d (List.mem_cons_self d pre)
    simp only [List.cons_append, List.map_cons, mapPairsLoop, constOp]
    simp only [hd, ne_eq, not_true_eq_false, if_false]
    exact ih _ (fun x hx => hpre x (List.mem_cons_of_mem d hx))

theorem mapPairsLoop_ok (eqf : Value → Value → Bool) (fm : Frame)
    (data : List (List Value × List Value)) (m : List (Value × Value))
    (h : ∀ d ∈ data, d.1.length = d.2.length) :
    mapPairsLoop eqf fm (data.map (fun d => (constOp d.1, constOp d.2))) m =
      .ok (data.foldl (fun acc d => insertPairs eqf acc d.1 d.2) m) := by
  induction data generalizing m with
  | nil => rfl
  | cons d rest ih =>
    have hd := h d (List.mem_cons_self d rest)
    simp only [List.map_cons, mapPairsLoop, constOp]
    simp only [hd, ne_eq, not_true_eq_false, if_false]
    rw [ih _ (fun x hx => h x (List.mem_cons_of_mem d hx))]
    rfl

theorem mapAssoc_lookup (eqf : Value → Value → Bool)
    (m : List (Value × Value)) (k v : Value) (hk : eqf k k = true) :
    mapLookup eqf (mapAssoc eqf m k v) k = some v := by
  induction m with
  | nil => simp [mapAssoc, mapLookup, hk]
  | cons p rest ih =>
    cases hp : eqf p.1 k with
    | true =>
      obtain ⟨k', v'⟩ := p
      simp only at hp
      simp [mapAssoc, hp, mapLookup, hk]
    | false =>
      obtain ⟨k', v'⟩ := p
      simp only at hp
      simp [mapAssoc, hp, mapLookup, ih]

/-- C8: a map-literal pair whose key and value sub-expressions produce
sequences of unequal lengths fails with an error stating both counts
(provided every earlier pair produced equal-length sequences); when every
pair's sequences have equal length, each pair is zipped positionally into
the map being built and the operation returns exactly one map value; and
an insertion under a colliding key overwrites the earlier binding, so
later pairs and later positions win on lookup. -/
theorem map_pairs_spec :
    (∀ (eqf : Value → Value → Bool) (fm : Frame)
       (pre : List (List Value × List Value)) (ks vs : List Value)
       (rest : List (List Value × List Value)),
      (∀ d ∈ pre, d.1.length = d.2.length) →
      ks.length ≠ vs.length →
      mapPairsInvoke eqf
          ((pre ++ (ks, vs) :: rest).map (fun d => (constOp d.1, constOp d.2)))
          fm =
        .error (.mapPairCount ks.length vs.length)) ∧
    (∀ (eqf : Value → Value → Bool) (fm : Frame)
       (data : List (List Value × List Value)),
      (∀ d ∈ data, d.1.length = d.2.length) →
      mapPairsInvoke eqf (data.map (fun d => (constOp d.1, constOp d.2))) fm =
        .ok [Value.map (buildMap eqf data)]) ∧
    (∀ (eqf : Value → Value → Bool) (m : List (Value × Value)) (k v : Value),
      eqf k k = true →
      mapLookup eqf (mapAssoc eqf m k v) k = some v) := by
  refine ⟨?_, ?_, mapAssoc_lookup⟩
  · intro eqf fm pre ks vs rest hpre hne
    unfold mapPairsInvoke
    rw [mapPairsLoop_error eqf fm pre ks vs rest [] hpre hne]
  · intro eqf fm data h
    unfold mapPairsInvoke
    rw [mapPairsLoop_ok eqf fm data [] h]
    rfl

/-- Witness for C8 at concrete inputs: a pair producing 2 keys and 3 values
fails reporting the counts (2, 3); a pair binding the same key at two
positions zips positionally with the later position winning, returning one
map value; and an insertion under a colliding key overwrites on lookup. -/
theorem map_pairs_spec_witness :
    mapPairsInvoke strKeyEq
        ([([Value.str "k1", Value.str "k2"],
           [Value.str "v1", Value.str "v2", Value.str "v3"])].map
          (fun d => (constOp d.1, constOp d.2))) defaultFrame =
      .error (.mapPairCount 2 3) ∧
    mapPairsInvoke strKeyEq
        ([([Value.str "k", Value.str "k"], [Value.str "v1", Value.str "v2"])].map
          (fun d => (constOp d.1, constOp d.2))) defaultFrame =
      .ok [Value.map [(Value.str "k", Value.str "v2")]] ∧
    mapLookup strKeyEq
        (mapAssoc strKeyEq [(Value.str "a", Value.str "v1")]
          (Value.str "a") (Value.str "v2")) (Value.str "a") =
      some (Value.str "v2") := by
  refine ⟨?_, ?_, ?_⟩
  · exact map_pairs_spec.1 strKeyEq defaultFrame []
      [Value.str "k1", Value.str "k2"]
      [Value.str "v1", Value.str "v2", Value.str "v3"] []
      (by intro d hd; simp at hd) (by decide)
  · exact map_pairs_spec.2.1 strKeyEq defaultFrame
      [([Value.str "k", Value.str "k"], [Value.str "v1", Value.str "v2"])]
      (by
        intro d hd
        simp only [List.mem_singleton] at hd
        subst hd
        rfl)
  · exact map_pairs_spec.2.2 strKeyEq [(Value.str "a", Value.str "v1")]
      (Value.str "a") (Value.str "v2") rfl

theorem toList_append (a b : String) : (a ++ b).toList = a.toList ++ b.toList := by
  cases a
  cases b
  rfl

theorem mk_toList (s : String) : String.mk s.toList = s := rfl

theorem toList_ne_nil {s : String} (h : s ≠ "") : s.toList ≠ [] := by
  intro h'
  apply h
  cases s with
  | mk data =>
    simp only [String.toList] at h'
    rw [show String.mk data = String.mk [] from congrArg String.mk h']

theorem readLinesAux_no_newline {cs : List Char} (h : '\n' ∉ cs) :
    ∀ acc : List Char, ¬ (acc = [] ∧ cs = []) →
      readLinesAux cs acc = [String.mk (acc.reverse ++ cs)] := by
  induction cs with
  | nil =>
    intro acc hne
    have hacc : acc ≠ [] := fun h' => hne ⟨h', rfl⟩
    simp [readLinesAux, hacc]
  | cons c cs ih =>
    intro acc _
    have hc : c ≠ '\n' := fun h' => h (h' ▸ List.mem_cons_self c cs)
    have hcs : '\n' ∉ cs := fun h' => h (List.mem_cons_of_mem c h')
    simp only [readLinesAux, if_neg hc]
    rw [ih hcs (c :: acc) (by simp)]
    simp [List.reverse_cons, List.append_assoc]

theorem readLinesAux_line {l : List Char} (h : '\n' ∉ l) :
    ∀ (rest acc : List Char),
      readLinesAux (l ++ '\n' :: rest) acc =
        String.mk (acc.reverse ++ l) :: readLinesAux rest [] := by
  induction l with
  | nil =>
    intro rest acc
    simp [readLinesAux]
  | cons c l ih =>
    intro rest acc
    have hc : c ≠ '\n' := fun h' => h (h' ▸ List.mem_cons_self c l)
    have hl : '\n' ∉ l := fun h' => h (List.mem_cons_of_mem c h')
    simp only [List.cons_append, readLinesAux, if_neg hc]
    show readLinesAux (l ++ '\n' :: rest) (c :: acc) =
      String.mk (acc.reverse ++ c :: l) :: readLinesAux rest []
    rw [ih hl rest (c :: acc)]
    simp [List.reverse_cons, List.append_assoc]

/-- Counterexample for C4: the claim asserts that a final byte-stream
fragment lacking a trailing newline is discarded and never appended to the
result buffer, but on the stream "a\nx" the drain appends the unterminated
fragment "x" after the line "a". -/
theorem bytes_drain_keeps_final_fragment :
    bytesDrain "a\nx" = [Value.str "a", Value.str "x"] ∧
    Value.str "x" ∈ bytesDrain "a\nx" := by
  constructor
  · rfl
  · rw [show bytesDrain "a\nx" = [Value.str "a", Value.str "x"] from rfl]
    exact List.mem_cons_of_mem _ (List.mem_cons_self _ _)

/-- C4 as amended: the byte-stream drain appends each newline-delimited
line as a text value with its trailing newline stripped, in stream order,
and also appends a final non-empty fragment lacking a trailing newline as
a text value (unchanged, having no newline to strip); only an empty final
fragment contributes nothing. -/
theorem bytes_drain_lines_spec :
    ∀ (lines : List String) (frag : String),
      (∀ l ∈ lines, '\n' ∉ l.toList) → '\n' ∉ frag.toList →
      bytesDrain (joinLines lines frag) =
        (lines ++ if frag = "" then [] else [frag]).map Value.str := by
  intro lines frag hlines hfrag
  induction lines with
  | nil =>
    by_cases hf : frag = ""
    · subst hf
      rfl
    · unfold bytesDrain joinLines
      rw [readLinesAux_no_newline hfrag []
        (fun hcon => toList_ne_nil hf hcon.2)]
      simp [mk_toList, hf]
  | cons l ls ih =>
    have hl : '\n' ∉ l.toList := hlines l (List.mem_cons_self l ls)
    have hls : ∀ x ∈ ls, '\n' ∉ x.toList :=
      fun x hx => hlines x (List.mem_cons_of_mem l hx)
    have hstream : (l ++ "\n" ++ joinLines ls frag).toList =
        l.toList ++ '\n' :: (joinLines ls frag).toList := by
      rw [toList_append, toList_append]
      simp [String.toList]
    unfold bytesDrain joinLines
    rw [hstream, readLinesAux_line hl]
    have ihr := ih hls
    unfold bytesDrain at ihr
    simp only [List.reverse_nil, List.nil_append, mk_toList, List.map_cons,
      List.cons_append]
    rw [ihr]

/-- Witness for C4's amended theorem at a concrete stream: two
newline-terminated lines followed by an unterminated fragment yield the
two lines and the fragment. -/
theorem bytes_drain_lines_spec_witness :
    bytesDrain (joinLines ["a", "b"] "c") =
      (["a", "b"] ++ if ("c" : String) = "" then [] else ["c"]).map Value.str := by
  exact bytes_drain_lines_spec ["a", "b"] "c"
    (by
      intro l hl
      rcases List.mem_cons.mp hl with rfl | hl'
      · decide
      · rcases List.mem_cons.mp hl' with rfl | h'
        · decide
        · simp at h')
    (by decide)

/-- Counterexample for C5: the claim asserts that option default-value
operations are evaluated once per invocation of the closure and not once
per definition (per evaluation of the lambda primary); but evaluating a
lambda primary whose single option default has an observable effect
(advancing the abstract store and returning the value read there) already
runs it — the store advances from 0 to 1 and the resulting closure holds
the snapshotted default value, not the operation. -/
theorem lambda_defaults_run_at_definition :
    lambdaOpInvoke
        ⟨[], "", ["opt"],
         [fun st => .ok ([Value.bool (decide (st = 0))], st + 1)], [], 0⟩
        (fun _ => none) 0 =
      .ok (⟨[], "", ["opt"], [Value.bool true], [], 0⟩, 1) ∧
    Except.map Prod.snd (lambdaOpInvoke
        ⟨[], "", ["opt"],
         [fun st => .ok ([Value.bool (decide (st = 0))], st + 1)], [], 0⟩
        (fun _ => none) 0) ≠ .ok 0 := by
  constructor
  · rfl
  · intro hcon
    rw [show Except.map Prod.snd (lambdaOpInvoke
        ⟨[], "", ["opt"],
         [fun st => .ok ([Value.bool (decide (st = 0))], st + 1)], [], 0⟩
        (fun _ => none) 0) = Except.ok 1 from rfl] at hcon
    simp at hcon

/-- C5 as amended: each option default-value operation is evaluated once
per evaluation of the lambda primary (once per closure definition), with
the resulting values stored in the created closure; two evaluations of the
same lambda primary each re-evaluate the default operation against the
current state, so the two closures hold independently computed defaults. -/
theorem lambda_defaults_per_definition :
    ∀ (L : LambdaOpM) (resolve : String → Option Nat) (op : EOp)
      (st st1 st2 : Nat) (v1 v2 : Value),
      L.optDefaultOps = [op] →
      op st = .ok ([v1], st1) →
      op st1 = .ok ([v2], st2) →
      lambdaOpInvoke L resolve st =
        .ok (⟨L.argNames, L.restArgName, L.optNames, [v1],
          resolveCapture L.capture resolve, L.subop⟩, st1) ∧
      lambdaOpInvoke L resolve st1 =
        .ok (⟨L.argNames, L.restArgName, L.optNames, [v2],
          resolveCapture L.capture resolve, L.subop⟩, st2) := by
  intro L resolve op st st1 st2 v1 v2 hops h1 h2
  constructor
  · unfold lambdaOpInvoke
    rw [hops]
    unfold evalDefaults
    rw [h1]
    rfl
  · unfold lambdaOpInvoke
    rw [hops]
    unfold evalDefaults
    rw [h2]
    rfl

/-- Witness for C5's amended theorem at a concrete effectful default
operation: two successive evaluations of the same lambda primary produce
closures with the defaults computed at each respective evaluation. -/
theorem lambda_defaults_per_definition_witness :
    lambdaOpInvoke
        ⟨["x"], "", ["opt"],
         [fun st => .ok ([Value.bool (decide (st = 0))], st + 1)], ["cap"], 7⟩
        (fun _ => some 3) 0 =
      .ok (⟨["x"], "", ["opt"], [Value.bool true],
        resolveCapture ["cap"] (fun _ => some 3), 7⟩, 1) ∧
    lambdaOpInvoke
        ⟨["x"], "", ["opt"],
         [fun st => .ok ([Value.bool (decide (st = 0))], st + 1)], ["cap"], 7⟩
        (fun _ => some 3) 1 =
      .ok (⟨["x"], "", ["opt"], [Value.bool false],
        resolveCapture ["cap"] (fun _ => some 3), 7⟩, 2) := by
  exact lambda_defaults_per_definition
    ⟨["x"], "", ["opt"],
     [fun st => .ok ([Value.bool (decide (st = 0))], st + 1)], ["cap"], 7⟩
    (fun _ => some 3)
    (fun st => .ok ([Value.bool (decide (st = 0))], st + 1))
    0 1 2 (Value.bool true) (Value.bool false) rfl rfl rfl

theorem idxOfChar_not_mem {c : Char} {cs : List Char} (h : c ∉ cs) :
    idxOfChar c cs = none := by
  induction cs with
  | nil => rfl
  | cons x xs ih =>
    have hx : x ≠ c := fun h' => h (h' ▸ List.mem_cons_self x xs)
    have hxs : c ∉ xs := fun h' => h (List.mem_cons_of_mem x h')
    simp [idxOfChar, hx, ih hxs]

theorem idxOfChar_append {c : Char} {cs : List Char} (h : c ∉ cs)
    (ds : List Char) : idxOfChar c (cs ++ c :: ds) = some cs.length := by
  induction cs with
  | nil => simp [idxOfChar]
  | cons x xs ih =>
    have hx : x ≠ c := fun h' => h (h' ▸ List.mem_cons_self x xs)
    have hxs : c ∉ xs := fun h' => h (List.mem_cons_of_mem x h')
    simp [idxOfChar, hx, ih hxs]

/-- C9: tilde expansion of a string value `user/sub` resolves to
`home(user)/sub` (via `path.Join`, which is the plain joined path whenever
the joined path is already clean); a compound consisting of a lone tilde
evaluates to a single string, the invoking user's home directory; and
tilde expansion of a glob pattern whose first segment is a literal
containing no path separator fails with the "cannot determine user name"
error. -/
theorem tilde_spec :
    (∀ (home : HomeFn) (user sub h : String),
      '/' ∉ user.toList → home user = .ok h → h ≠ "" → sub ≠ "" →
      pathClean (h ++ "/" ++ sub) = h ++ "/" ++ sub →
      doTilde home (.str (user ++ "/" ++ sub)) =
        .ok (.str (h ++ "/" ++ sub))) ∧
    (∀ (fm : Frame) (idx : Indexing) (h : String),
      idx.headIsTilde = true → fm.home "" = .ok h →
      compileCompound ⟨[idx]⟩ fm = .ok [.str h]) ∧
    (∀ (home : HomeFn) (s : String) (segs : List Segment)
       (dirO : String) (flags : Nat) (buts : List Nat),
      '/' ∉ s.toList →
      doTilde home (.glob ⟨.literal s :: segs, dirO, flags, buts⟩) =
        .error .cannotDetermineUsername) := by
  refine ⟨?_, ?_, ?_⟩
  · intro home user sub h huser hhome hne hsubne hclean
    have hsplit : (user ++ "/" ++ sub).toList =
        user.toList ++ '/' :: sub.toList := by
      rw [toList_append, toList_append]
      simp [String.toList, List.append_assoc]
    have hidx : idxOfChar '/' (user ++ "/" ++ sub).toList =
        some user.toList.length := by
      rw [hsplit]
      exact idxOfChar_append huser sub.toList
    have htake : (user ++ "/" ++ sub).toList.take user.toList.length =
        user.toList := by
      rw [hsplit]
      exact List.take_left user.toList ('/' :: sub.toList)
    have hdrop : (user ++ "/" ++ sub).toList.drop (user.toList.length + 1) =
        sub.toList := by
      rw [hsplit]
      rw [show user.toList ++ '/' :: sub.toList =
        (user.toList ++ ['/']) ++ sub.toList by simp]
      rw [show user.toList.length + 1 = (user.toList ++ ['/']).length by simp]
      exact List.drop_left _ _
    have hjoin : pathJoin h sub = h ++ "/" ++ sub := by
      unfold pathJoin
      rw [if_neg hne, if_neg hsubne, hclean]
    simp only [doTilde, hidx, htake, mk_toList, hhome, hdrop, hjoin]
  · intro fm idx h htilde hhome
    obtain ⟨b, op⟩ := idx
    simp only at htilde
    subst htilde
    simp only [compileCompound, if_true]
    rw [hhome]
  · intro home s segs dirO flags buts hs
    simp only [doTilde]
    rw [idxOfChar_not_mem hs]

/-- Witness for C9 at concrete inputs: a concrete home resolver maps
"alice" to "/home/alice", so "alice/sub" expands to "/home/alice/sub"; a
lone tilde yields the invoking user's home "/root"; and a glob pattern
whose first literal segment "abc" has no slash fails. -/
theorem tilde_spec_witness :
    doTilde (fun u => .ok (if u = "" then "/root" else "/home/" ++ u))
        (.str ("alice/sub")) = .ok (.str "/home/alice/sub") ∧
    compileCompound ⟨[⟨true, constOp []⟩]⟩
        ⟨fun u => .ok (if u = "" then "/root" else "/home/" ++ u), fun _ => []⟩ =
      .ok [Value.str "/root"] ∧
    doTilde (fun u => .ok (if u = "" then "/root" else "/home/" ++ u))
        (.glob ⟨[.literal "abc"], "", 0, []⟩) =
      .error .cannotDetermineUsername := by
  refine ⟨?_, ?_, ?_⟩
  · have h := tilde_spec.1
      (fun u => .ok (if u = "" then "/root" else "/home/" ++ u))
      "alice" "sub" "/home/alice" (by decide) (by simp) (by decide)
      (by decide) (by decide)
    simpa using h
  · exact tilde_spec.2.1
      ⟨fun u => .ok (if u = "" then "/root" else "/home/" ++ u), fun _ => []⟩
      ⟨true, constOp []⟩ "/root" rfl (by simp)
  · exact tilde_spec.2.2
      (fun u => .ok (if u = "" then "/root" else "/home/" ++ u))
      "abc" [] "" 0 [] (by decide)

end ElvishCompileValue
